import Mathlib

/-!
Verification of the grillo reliability and framing layer.

The definitions below are a shallow embedding of `src/grillo/modem.py` and
`src/grillo/grillo.py`.  Bytes are modelled as `Nat` (values 0..255), byte
strings as `List Nat`.  The `Modem` instance state `chained_total_parts` /
`chained_parts` becomes an explicit `ModemState` record threaded through the
functions; the Python dict `chained_parts` is an association list where the
most recent insertion is at the head (dict assignment = cons, dict lookup =
first match), which realises the same key-value semantics.
-/

/-- Modem.DATA_LEN from modem.py: data bytes carried per packet. -/
def DATA_LEN : Nat := 30

/-- Exceptions of modem.py: MessageTooLongException, MessageAckIsBroken, and
the IndexError that `_get_packets_to_retry` hits on an empty ack packet. -/
inductive ModemError where
  | messageTooLong
  | messageAckIsBroken
  | indexError
deriving DecidableEq

/-- The chained-message receive state of a Modem instance:
`chained_total_parts` and `chained_parts` (dict modelled as an assoc list,
newest entry first). -/
structure ModemState where
  chainedTotalParts : Option Nat
  chainedParts : List (Nat × List Nat)
deriving DecidableEq

/-- Modem.reset_chained_status: total unknown, no parts stored. -/
def initialModemState : ModemState := ⟨none, []⟩

/-- Python dict lookup `chained_parts[k]` (and the `k in chained_parts`
membership test via `Option.isSome`): first matching entry wins, which is the
newest insertion. -/
def lookupPart (k : Nat) (parts : List (Nat × List Nat)) : Option (List Nat) :=
  (parts.find? (fun e => e.1 == k)).map (fun e => e.2)

/-- Modem.on_chained_part_received: `total_parts = packet[0]`,
`part_number = packet[1]`, `message_part = packet[2:]`; the first packet sets
`chained_total_parts`, every packet stores its data under its index
(dict assignment = cons).  A packet shorter than the 2-byte header would raise
IndexError in the source; protocol packets always carry the header, and the
fallback branch (state unchanged) is never exercised by the theorems. -/
def onChainedPartReceived (s : ModemState) (packet : List Nat) : ModemState :=
  match packet with
  | totalParts :: partNumber :: messagePart =>
      { chainedTotalParts :=
          match s.chainedTotalParts with
          | none => some totalParts
          | some t => some t
        chainedParts := (partNumber, messagePart) :: s.chainedParts }
  | _ => s

/-- Modem.chained_missing_parts: the part numbers in `range total` that are
not keys of the parts dict, in increasing order. -/
def chainedMissingParts (totalParts : Nat) (parts : List (Nat × List Nat)) : List Nat :=
  (List.range totalParts).filter (fun i => (lookupPart i parts).isNone)

/-- Modem.chained_combine: concatenation of the stored data slices for
indices `0 .. total-1`, ordered by index.  The source indexes the dict
directly (it is only called when no part is missing); the model reads a
missing entry as `[]` via `Option.getD`. -/
def chainedCombine (totalParts : Nat) (parts : List (Nat × List Nat)) : List Nat :=
  ((List.range totalParts).map (fun i => (lookupPart i parts).getD [])).flatten

/-- The message a finished buffer yields: `chained_combine` evaluated at the
buffer's own `chained_total_parts` (none while no packet has arrived). -/
def finalChainedMessage (s : ModemState) : Option (List Nat) :=
  match s.chainedTotalParts with
  | none => none
  | some n => some (chainedCombine n s.chainedParts)

/-- Byte 0 of a packet (`packet[0]`): the chain length stamped by the sender. -/
def packetTotal (p : List Nat) : Nat := p.headD 0

/-- Byte 1 of a packet (`packet[1]`): the chunk index. -/
def packetIndex (p : List Nat) : Nat := (p.drop 1).headD 0

/-- Bytes 2.. of a packet (`packet[2:]`): the chunk data. -/
def packetData (p : List Nat) : List Nat := p.drop 2

/-- Modem._get_chain_len: `size // DATA_LEN + 1`. -/
def getChainLen (size : Nat) : Nat := size / DATA_LEN + 1

/-- One packet of Modem._send_packets:
`bytes([chain_len, i]) + message[DATA_LEN*i : DATA_LEN*(i+1)]`. -/
def mkPacket (chainLen : Nat) (message : List Nat) (i : Nat) : List Nat :=
  chainLen :: i :: ((message.drop (DATA_LEN * i)).take DATA_LEN)

/-- Modem._send_packets: the packets transmitted for the given index list,
in order. -/
def sendPackets (message : List Nat) (packetList : List Nat) (chainLen : Nat) :
    List (List Nat) :=
  packetList.map (mkPacket chainLen message)

/-- Modem.send_ack: the ack packet `bytes([0] + missing_parts)`. -/
def sendAckPacket (missingParts : List Nat) : List Nat := 0 :: missingParts

/-- Modem._get_packets_to_retry, as a function of the packet the blocking
`receive_packet` call produced (`none` = timed out with no packet): a timeout
yields no retries; otherwise a leading marker byte 0 yields the remaining
bytes as indices to retry, any other marker raises MessageAckIsBroken, and an
empty packet raises IndexError at `ack_msg[0]`. -/
def getPacketsToRetry (ackMsg : Option (List Nat)) : Except ModemError (List Nat) :=
  match ackMsg with
  | none => .ok []
  | some [] => .error .indexError
  | some (header :: rest) =>
      if header = 0 then .ok rest else .error .messageAckIsBroken

/-- The `while len(packets_to_send) > 0` loop of Modem.send_message in
confirmed mode, as a function of the successive results of the per-round
`receive_packet` wait (one entry consumed per round; an exhausted list stands
for a wait that times out).  Returns the transcript of transmitted rounds and
the error, if one was raised. -/
def sendRounds (message : List Nat) (chainLen : Nat) :
    List Nat → List (Option (List Nat)) → List (List (List Nat)) × Option ModemError
  | [], _ => ([], none)
  | i :: rest, acks =>
      let sent := sendPackets message (i :: rest) chainLen
      match acks with
      | [] => ([sent], none)
      | a :: moreAcks =>
          match getPacketsToRetry a with
          | .error e => ([sent], some e)
          | .ok retry =>
              let next := sendRounds message chainLen retry moreAcks
              (sent :: next.1, next.2)

/-- Modem.send_message: chain length from the message length, rejection with
MessageTooLongException when it exceeds 255 (before anything is transmitted),
then either the confirmed-mode round loop or a single unconfirmed round. -/
def sendMessage (withConfirmation : Bool) (message : List Nat)
    (acks : List (Option (List Nat))) : List (List (List Nat)) × Option ModemError :=
  let chainLen := getChainLen message.length
  if 255 < chainLen then ([], some .messageTooLong)
  else if withConfirmation then sendRounds message chainLen (List.range chainLen) acks
  else ([sendPackets message (List.range chainLen) chainLen], none)

/-- One iteration of the Modem.receive_message polling loop: the packets the
chirp callback delivered since the previous iteration, and the value
`_timeout_expired()` reads at this iteration. -/
structure ReceiveEvent where
  arrived : List (List Nat)
  timedOut : Bool

/-- The `while chained_message is None` loop of Modem.receive_message.
`lastExpectedPart` is the loop variable `last_expected_part` (an `Int`
because Python computes `total - 1`, which is `-1` for a zero total).  Each
iteration folds the newly arrived packets into the buffer, then runs the
completion check: once the last expected part is present or the attempt
timeout expired, either all parts are there (deliver `chained_combine`) or an
ack for the first `DATA_LEN` missing parts is sent and the wait continues.
An exhausted event list, or an iteration whose overall-timeout check fires,
returns `none` (no message delivered). -/
def receiveLoop (s : ModemState) (lastExpectedPart : Option Int) :
    List ReceiveEvent → Option (List Nat)
  | [] => none
  | ev :: rest =>
      let s' := ev.arrived.foldl onChainedPartReceived s
      match s'.chainedTotalParts with
      | none =>
          if ev.timedOut then none else receiveLoop s' lastExpectedPart rest
      | some n =>
          let le := lastExpectedPart.getD ((n : Int) - 1)
          if (decide (0 ≤ le) && (lookupPart le.toNat s'.chainedParts).isSome)
              || ev.timedOut then
            match chainedMissingParts n s'.chainedParts with
            | [] => some (chainedCombine n s'.chainedParts)
            | m :: ms =>
                let partsToResend := (m :: ms).take DATA_LEN
                receiveLoop s' (some ((partsToResend.getLastD 0 : Nat) : Int)) rest
          else
            receiveLoop s' (some le) rest

/-- The reassembly buffer the receive loop holds after completing iteration
`j`: the starting state with every packet that arrived during iterations
`0 .. j` folded in, in arrival order.  This is the state the loop's
completion check, ack decision and delivery all read. -/
def bufferAfter (s : ModemState) (events : List ReceiveEvent) (j : Nat) :
    ModemState :=
  (((events.take (j + 1)).map ReceiveEvent.arrived).flatten).foldl
    onChainedPartReceived s

/-- Test whether `sep` is an initial run of `l` — the check Python's
`bytes.find`/`bytes.split` perform at each scan position. -/
def seqStartsWith : List Nat → List Nat → Bool
  | [], _ => true
  | _ :: _, [] => false
  | a :: s, b :: l => a == b && seqStartsWith s l

/-- Position of the first occurrence of `sep` in `l` (Python `bytes.find`,
scanning left to right), `none` when `sep` does not occur. -/
def findSeq (sep : List Nat) : List Nat → Option Nat
  | [] => if seqStartsWith sep [] then some 0 else none
  | a :: rest =>
      if seqStartsWith sep (a :: rest) then some 0
      else (findSeq sep rest).map (fun i => i + 1)

theorem seqStartsWith_iff (sep l : List Nat) :
    seqStartsWith sep l = true ↔ sep <+: l := by
  induction sep generalizing l with
  | nil => simp [seqStartsWith]
  | cons a s ih =>
      cases l with
      | nil => simp [seqStartsWith, List.prefix_nil]
      | cons b t =>
          simp only [seqStartsWith, Bool.and_eq_true, beq_iff_eq, ih,
            List.cons_prefix_cons]

theorem seqStartsWith_length_le (sep l : List Nat)
    (h : seqStartsWith sep l = true) : sep.length ≤ l.length :=
  ((seqStartsWith_iff sep l).mp h).length_le


theorem findSeq_startsWith (sep l : List Nat) (i : Nat)
    (h : findSeq sep l = some i) : seqStartsWith sep (l.drop i) = true := by
  induction l generalizing i with
  | nil =>
      simp only [findSeq] at h
      split at h
      next hs => injection h with h; subst h; simpa using hs
      next => simp at h
  | cons a rest ih =>
      simp only [findSeq] at h
      split at h
      next hs => injection h with h; subst h; simpa using hs
      next =>
          obtain ⟨j, hj, hji⟩ := Option.map_eq_some'.mp h
          subst hji
          simpa using ih j hj

/-- Python `bytes.split(sep)` for a non-empty separator: cut at the first
occurrence, continue after it, scanning left to right with non-overlapping
matches.  Python raises ValueError on an empty separator; that branch returns
the whole input and is never used (both separators in the source are
non-empty literals). -/
def splitSeq : List Nat → List Nat → List (List Nat)
  | [], l => [l]
  | s0 :: srest, l =>
      match hf : findSeq (s0 :: srest) l with
      | none => [l]
      | some i =>
          l.take i :: splitSeq (s0 :: srest) (l.drop (i + (srest.length + 1)))
  termination_by _ l => l.length
  decreasing_by
    have hpre := findSeq_startsWith (s0 :: srest) l i hf
    have hlen := seqStartsWith_length_le (s0 :: srest) (l.drop i) hpre
    simp only [List.length_drop, List.length_cons] at hlen ⊢
    omega

/-- Python `sep.join(parts)`: concatenation with `sep` between consecutive
elements. -/
def joinSep (sep : List Nat) : List (List Nat) → List Nat
  | [] => []
  | [x] => x
  | x :: y :: rest => x ++ sep ++ joinSep sep (y :: rest)

/-- Kinds of messages Grillo can send (grillo.py MessageKind). -/
inductive MessageKind where
  | text
  | clipboard
  | file
deriving DecidableEq

/-- The single UTF-8 byte of each MessageKind value: "t", "c", "f". -/
def kindByte : MessageKind → Nat
  | .text => 116
  | .clipboard => 99
  | .file => 102

/-- Grillo.HEADER_SEPARATOR, the byte of `b"|"`. -/
def HEADER_SEPARATOR : Nat := 124

/-- Grillo.FILE_NAME_SEPARATOR, the bytes of `b"<NAME>"`. -/
def FILE_NAME_SEPARATOR : List Nat := [60, 78, 65, 77, 69, 62]

/-- The framed message Grillo.send_message builds:
`kind.value.encode("utf-8") + HEADER_SEPARATOR + payload`. -/
def frameMessage (kind : MessageKind) (payload : List Nat) : List Nat :=
  kindByte kind :: HEADER_SEPARATOR :: payload

/-- Inverse of `kindByte`, the `MessageKind(parts[0].decode("utf-8"))` call of
Grillo.read_message; any other leading part raises ValueError (`none`). -/
def kindOfBytes : List Nat → Option MessageKind
  | [116] => some .text
  | [99] => some .clipboard
  | [102] => some .file
  | _ => none

/-- Grillo.read_message: split the framed bytes on HEADER_SEPARATOR, read the
kind from the first part, and rejoin the remaining parts as the payload. -/
def readMessage (message : List Nat) : Option (MessageKind × List Nat) :=
  match splitSeq [HEADER_SEPARATOR] message with
  | [] => none
  | p0 :: rest =>
      (kindOfBytes p0).map (fun k => (k, joinSep [HEADER_SEPARATOR] rest))

/-- The file payload Grillo.send_file builds:
`file_name_bytes + FILE_NAME_SEPARATOR + file_contents`. -/
def sendFilePayload (name contents : List Nat) : List Nat :=
  name ++ FILE_NAME_SEPARATOR ++ contents

/-- Grillo.receive_file: split the payload on FILE_NAME_SEPARATOR, take the
first part as the file name and rejoin the rest as the contents. -/
def receiveFilePayload (payload : List Nat) : List Nat × List Nat :=
  match splitSeq FILE_NAME_SEPARATOR payload with
  | [] => ([], [])
  | p0 :: rest => (p0, joinSep FILE_NAME_SEPARATOR rest)

theorem exists_header_of_two_le (p : List Nat) (h : 2 ≤ p.length) :
    ∃ a b d, p = a :: b :: d := by
  match p with
  | a :: b :: d => exact ⟨a, b, d, rfl⟩
  | [] => simp at h
  | [a] => simp at h

theorem onChainedPartReceived_totalParts_some (s : ModemState) (p : List Nat)
    (x : Nat) (h : s.chainedTotalParts = some x) :
    (onChainedPartReceived s p).chainedTotalParts = some x := by
  match p with
  | a :: b :: d => simp [onChainedPartReceived, h]
  | [] => simpa [onChainedPartReceived] using h
  | [a] => simpa [onChainedPartReceived] using h

theorem foldl_totalParts_some (l : List (List Nat)) (s : ModemState) (x : Nat)
    (h : s.chainedTotalParts = some x) :
    (l.foldl onChainedPartReceived s).chainedTotalParts = some x := by
  induction l generalizing s with
  | nil => simpa using h
  | cons p rest ih =>
      exact ih _ (onChainedPartReceived_totalParts_some s p x h)

theorem foldl_totalParts (l : List (List Nat)) (t : Nat)
    (h2 : ∀ p ∈ l, 2 ≤ p.length) (ht : ∀ p ∈ l, packetTotal p = t)
    (hne : l ≠ []) :
    (l.foldl onChainedPartReceived initialModemState).chainedTotalParts = some t := by
  match l with
  | [] => exact absurd rfl hne
  | p :: rest =>
      obtain ⟨a, b, d, rfl⟩ := exists_header_of_two_le p (h2 p (by simp))
      have ha : a = t := by
        simpa [packetTotal] using ht (a :: b :: d) (by simp)
      subst ha
      exact foldl_totalParts_some rest _ a (by simp [onChainedPartReceived, initialModemState])

theorem foldl_chainedParts (l : List (List Nat)) (s : ModemState)
    (h2 : ∀ p ∈ l, 2 ≤ p.length) :
    (l.foldl onChainedPartReceived s).chainedParts =
      (l.reverse.map (fun p => (packetIndex p, packetData p))) ++ s.chainedParts := by
  induction l generalizing s with
  | nil => simp
  | cons p rest ih =>
      obtain ⟨a, b, d, rfl⟩ := exists_header_of_two_le p (h2 p (by simp))
      have := ih { chainedTotalParts := match s.chainedTotalParts with
                     | none => some a
                     | some t => some t
                   chainedParts := (b, d) :: s.chainedParts }
        (fun q hq => h2 q (by simp [hq]))
      simp only [List.foldl_cons, onChainedPartReceived] at this ⊢
      rw [this]
      simp [packetIndex, packetData]

theorem find?_map_pair (f : Nat → List Nat) (ks : List Nat) (k : Nat) :
    (ks.map (fun i => (i, f i))).find? (fun e => e.1 == k) =
      if k ∈ ks then some (k, f k) else none := by
  induction ks with
  | nil => simp
  | cons i t ih =>
      by_cases hik : i = k
      · subst hik
        simp [List.find?_cons]
      · simp [List.find?_cons, hik, Ne.symm hik, ih]

theorem find?_key_perm (e₁ e₂ : List (Nat × List Nat)) (hp : e₁.Perm e₂)
    (hnd : (e₁.map Prod.fst).Nodup) (k : Nat) :
    e₁.find? (fun e => e.1 == k) = e₂.find? (fun e => e.1 == k) := by
  cases h₁ : e₁.find? (fun e => e.1 == k) with
  | none =>
      cases h₂ : e₂.find? (fun e => e.1 == k) with
      | none => rfl
      | some e =>
          have hmem : e ∈ e₁ := hp.symm.subset (List.mem_of_find?_eq_some h₂)
          have := List.find?_eq_none.mp h₁ e hmem
          exact absurd (List.find?_some h₂) this
  | some e =>
      cases h₂ : e₂.find? (fun e => e.1 == k) with
      | none =>
          have hmem : e ∈ e₂ := hp.subset (List.mem_of_find?_eq_some h₁)
          have := List.find?_eq_none.mp h₂ e hmem
          exact absurd (List.find?_some h₁) this
      | some e' =>
          have hmem : e ∈ e₁ := List.mem_of_find?_eq_some h₁
          have hmem' : e' ∈ e₁ := hp.symm.subset (List.mem_of_find?_eq_some h₂)
          have hk : e.1 = k := by simpa using List.find?_some h₁
          have hk' : e'.1 = k := by simpa using List.find?_some h₂
          have : e = e' :=
            List.inj_on_of_nodup_map hnd hmem hmem' (by rw [hk, hk'])
          rw [this]

theorem lookupPart_perm (e₁ e₂ : List (Nat × List Nat)) (hp : e₁.Perm e₂)
    (hnd : (e₁.map Prod.fst).Nodup) (k : Nat) :
    lookupPart k e₁ = lookupPart k e₂ := by
  unfold lookupPart
  rw [find?_key_perm e₁ e₂ hp hnd k]

theorem flatten_slices (n : Nat) (msg : List Nat) :
    ((List.range n).map
      (fun i => (msg.drop (DATA_LEN * i)).take DATA_LEN)).flatten =
      msg.take (DATA_LEN * n) := by
  induction n generalizing msg with
  | zero => simp
  | succ m ih =>
      rw [List.range_succ_eq_map]
      simp only [List.map_cons, List.map_map, List.flatten_cons, Nat.mul_zero,
        List.drop_zero]
      have hcomp :
          ((fun i => (msg.drop (DATA_LEN * i)).take DATA_LEN) ∘ (fun i => i + 1)) =
            (fun i => ((msg.drop DATA_LEN).drop (DATA_LEN * i)).take DATA_LEN) := by
        funext i
        simp only [Function.comp_apply, List.drop_drop]
        ring_nf
      rw [hcomp, ih (msg.drop DATA_LEN)]
      rw [show DATA_LEN * (m + 1) = DATA_LEN + DATA_LEN * m by ring]
      rw [List.take_add]

/-- Claim C1, counterexample: for a message of length 30 the computed total
chunk count is 2, while `ceil(30 / 30) = (30 + 29) / 30 = 1`, so the chunk
count is not `ceil(L / 30)`. -/
theorem claim_c1_counterexample :
    getChainLen 30 = 2 ∧ (30 + 29) / 30 = 1 ∧
      ¬ getChainLen 30 = (30 + 29) / 30 := by
  decide

/-- Claim C1, amended: for every message of length L handed to the chunker,
the computed total chunk count is `floor(L / 30) + 1` (equivalently
`ceil((L + 1) / 30) = (L + 30) / 30`, which differs from `ceil(L / 30)`
exactly when 30 divides L); the last chunk's data length is
`L - 30 * (total_chunks - 1)`; and the send operation raises
MessageTooLongException with nothing transmitted exactly when that chunk
count exceeds 255, i.e. exactly when `L ≥ 255 * 30`. -/
theorem claim_c1_amended (withConfirmation : Bool) (message : List Nat)
    (acks : List (Option (List Nat))) :
    getChainLen message.length = (message.length + 30) / 30 ∧
    (packetData (mkPacket (getChainLen message.length) message
        (getChainLen message.length - 1))).length =
      message.length - 30 * (getChainLen message.length - 1) ∧
    (sendMessage withConfirmation message acks = ([], some .messageTooLong) ↔
      255 < getChainLen message.length) ∧
    (255 < getChainLen message.length ↔ 255 * 30 ≤ message.length) := by
  refine ⟨?_, ?_, ?_, ?_⟩
  · simp only [getChainLen, DATA_LEN]
    omega
  · simp only [getChainLen, DATA_LEN, mkPacket, packetData, List.drop_succ_cons,
      List.drop_zero, List.length_take, List.length_drop]
    omega
  · constructor
    · intro h
      by_contra hlt
      simp only [sendMessage, if_neg hlt] at h
      by_cases hc : withConfirmation = true
      · rw [if_pos hc] at h
        have hne : List.range (getChainLen message.length) ≠ [] := by
          simp [getChainLen, List.range_eq_nil]
        obtain ⟨i, rest, hr⟩ : ∃ i rest,
            List.range (getChainLen message.length) = i :: rest := by
          cases hx : List.range (getChainLen message.length) with
          | nil => exact absurd hx hne
          | cons i rest => exact ⟨i, rest, rfl⟩
        rw [hr] at h
        cases acks with
        | nil => simp [sendRounds] at h
        | cons a moreAcks =>
            simp only [sendRounds] at h
            cases hra : getPacketsToRetry a with
            | error e => rw [hra] at h; simp at h
            | ok retry => rw [hra] at h; simp at h
      · simp only [Bool.not_eq_true] at hc
        rw [hc] at h
        simp at h
    · intro h
      simp [sendMessage, if_pos h]
  · simp only [getChainLen, DATA_LEN]
    omega

/-- Claim C5: for every buffer, the missing-index computation returns exactly
the indices in `0 .. total-1` that are absent from the buffer, in strictly
increasing order; the buffer holding indices 0, 2, 3 with total 4 reports
missing `[1]`. -/
theorem claim_c5 :
    (∀ (n : Nat) (parts : List (Nat × List Nat)) (i : Nat),
        i ∈ chainedMissingParts n parts ↔ i < n ∧ lookupPart i parts = none) ∧
    (∀ (n : Nat) (parts : List (Nat × List Nat)),
        (chainedMissingParts n parts).Sorted (· < ·)) ∧
    chainedMissingParts 4 [(0, [5]), (2, [6]), (3, [7])] = [1] := by
  refine ⟨?_, ?_, by decide⟩
  · intro n parts i
    simp [chainedMissingParts, List.mem_filter, List.mem_range,
      Option.isNone_iff_eq_none]
  · intro n parts
    exact (List.pairwise_lt_range n).filter _

/-- Claim C6: encoding any list of missing chunk indices (each a byte value)
as an ack packet and decoding that packet with the ack reader yields the same
list exactly, while decoding any packet whose leading marker byte is not 0
raises MessageAckIsBroken instead of returning a list. -/
theorem claim_c6 :
    (∀ missingParts : List Nat, (∀ b ∈ missingParts, b < 256) →
        getPacketsToRetry (some (sendAckPacket missingParts)) =
          .ok missingParts) ∧
    (∀ (h : Nat) (t : List Nat), h ≠ 0 →
        getPacketsToRetry (some (h :: t)) = .error .messageAckIsBroken) := by
  constructor
  · intro missingParts _
    simp [getPacketsToRetry, sendAckPacket]
  · intro h t hh
    simp [getPacketsToRetry, hh]

/-- Witness for claim C6 at concrete inputs: the indices `[1, 5, 9]` survive
the ack round trip, and the packet `[7, 1]` (marker 7) is rejected. -/
theorem claim_c6_witness :
    getPacketsToRetry (some (sendAckPacket [1, 5, 9])) = .ok [1, 5, 9] ∧
    getPacketsToRetry (some (7 :: [1])) = .error .messageAckIsBroken :=
  ⟨claim_c6.1 [1, 5, 9] (by decide), claim_c6.2 7 [1] (by decide)⟩

/-- Claim C7: in confirmed mode the sender consumes exactly one ack wait per
transmitted round (so a transcript never has more rounds than acks consumed
plus the initial round); a round whose wait times out with no ack ends the
send with no retransmission; and an ack packet listing indices makes the
sender retransmit exactly those indices as the next round, continuing the
round loop on them. -/
theorem claim_c7 (message : List Nat) (chainLen : Nat) (toSend : List Nat)
    (acks : List (Option (List Nat))) :
    ((sendRounds message chainLen toSend acks).1.length ≤ acks.length + 1) ∧
    (toSend ≠ [] →
      sendRounds message chainLen toSend (none :: acks) =
        ([sendPackets message toSend chainLen], none)) ∧
    (∀ retry : List Nat, toSend ≠ [] →
      sendRounds message chainLen toSend (some (0 :: retry) :: acks) =
        (sendPackets message toSend chainLen ::
            (sendRounds message chainLen retry acks).1,
          (sendRounds message chainLen retry acks).2)) := by
  refine ⟨?_, ?_, ?_⟩
  · induction acks generalizing toSend with
    | nil =>
        cases toSend with
        | nil => simp [sendRounds]
        | cons i rest => simp [sendRounds]
    | cons a moreAcks ih =>
        cases toSend with
        | nil => simp [sendRounds]
        | cons i rest =>
            simp only [sendRounds]
            cases hra : getPacketsToRetry a with
            | error e => simp
            | ok retry =>
                simp only [List.length_cons]
                have := ih retry
                simpa using Nat.succ_le_succ this
  · intro hne
    cases toSend with
    | nil => exact absurd rfl hne
    | cons i rest => simp [sendRounds, getPacketsToRetry]
  · intro retry hne
    cases toSend with
    | nil => exact absurd rfl hne
    | cons i rest => simp [sendRounds, getPacketsToRetry]

/-- Witness for claim C7 at concrete input: one pending chunk, chain length
1; the no-ack round stops after one transmission, and an ack listing index 2
makes round two retransmit exactly chunk 2. -/
theorem claim_c7_witness :
    ((sendRounds [1, 2, 3] 1 [0] []).1.length ≤ List.length ([] : List (Option (List Nat))) + 1) ∧
    (sendRounds [1, 2, 3] 1 [0] (none :: []) = ([sendPackets [1, 2, 3] [0] 1], none)) ∧
    (sendRounds [1, 2, 3] 1 [0] (some (0 :: [2]) :: []) =
      (sendPackets [1, 2, 3] [0] 1 :: (sendRounds [1, 2, 3] 1 [2] []).1,
        (sendRounds [1, 2, 3] 1 [2] []).2)) :=
  ⟨(claim_c7 [1, 2, 3] 1 [0] []).1,
   (claim_c7 [1, 2, 3] 1 [0] []).2.1 (by decide),
   (claim_c7 [1, 2, 3] 1 [0] []).2.2 [2] (by decide)⟩

theorem lookupPart_cons_ne (i b : Nat) (d : List Nat)
    (parts : List (Nat × List Nat)) (h : b ≠ i) :
    lookupPart i ((b, d) :: parts) = lookupPart i parts := by
  unfold lookupPart
  rw [List.find?_cons_of_neg]
  simpa using h

theorem lookupPart_cons_self (b : Nat) (d : List Nat)
    (parts : List (Nat × List Nat)) :
    lookupPart b ((b, d) :: parts) = some d := by
  simp [lookupPart, List.find?_cons]

/-- Claim C10: a packet whose chunk index is at least the buffer's
established total is accepted into the buffer without error, but it changes
neither the missing-index computation, nor the completion decision, nor the
reassembled message, and the established total survives. -/
theorem claim_c10 (s : ModemState) (n : Nat) (p : List Nat)
    (hs : s.chainedTotalParts = some n) (hp : 2 ≤ p.length)
    (hge : n ≤ packetIndex p) :
    (onChainedPartReceived s p).chainedTotalParts = some n ∧
    chainedMissingParts n (onChainedPartReceived s p).chainedParts =
      chainedMissingParts n s.chainedParts ∧
    (chainedMissingParts n (onChainedPartReceived s p).chainedParts = [] ↔
      chainedMissingParts n s.chainedParts = []) ∧
    chainedCombine n (onChainedPartReceived s p).chainedParts =
      chainedCombine n s.chainedParts := by
  obtain ⟨a, b, d, rfl⟩ := exists_header_of_two_le p hp
  have hb : n ≤ b := by simpa [packetIndex] using hge
  have hlook : ∀ i < n,
      lookupPart i ((b, d) :: s.chainedParts) = lookupPart i s.chainedParts := by
    intro i hi
    exact lookupPart_cons_ne i b d s.chainedParts (by omega)
  have hparts : (onChainedPartReceived s (a :: b :: d)).chainedParts =
      (b, d) :: s.chainedParts := by
    simp [onChainedPartReceived]
  have hmiss : chainedMissingParts n ((b, d) :: s.chainedParts) =
      chainedMissingParts n s.chainedParts := by
    unfold chainedMissingParts
    refine List.filter_congr ?_
    intro i hi
    rw [hlook i (List.mem_range.mp hi)]
  refine ⟨?_, ?_, ?_, ?_⟩
  · exact onChainedPartReceived_totalParts_some s _ n hs
  · rw [hparts, hmiss]
  · rw [hparts, hmiss]
  · rw [hparts]
    unfold chainedCombine
    congr 1
    refine List.map_congr_left ?_
    intro i hi
    rw [hlook i (List.mem_range.mp hi)]

/-- Witness for claim C10 at concrete input: buffer with total 2 holding
chunk 0; the stray packet `[2, 5, 9]` (index 5 ≥ 2) leaves the missing list,
the completion decision and the combined message unchanged. -/
theorem claim_c10_witness :
    (onChainedPartReceived ⟨some 2, [(0, [4])]⟩ [2, 5, 9]).chainedTotalParts = some 2 ∧
    chainedMissingParts 2 (onChainedPartReceived ⟨some 2, [(0, [4])]⟩ [2, 5, 9]).chainedParts =
      chainedMissingParts 2 [(0, [4])] ∧
    (chainedMissingParts 2 (onChainedPartReceived ⟨some 2, [(0, [4])]⟩ [2, 5, 9]).chainedParts = [] ↔
      chainedMissingParts 2 [(0, [4])] = []) ∧
    chainedCombine 2 (onChainedPartReceived ⟨some 2, [(0, [4])]⟩ [2, 5, 9]).chainedParts =
      chainedCombine 2 [(0, [4])] :=
  claim_c10 ⟨some 2, [(0, [4])]⟩ 2 [2, 5, 9] rfl (by decide) (by decide)

/-- Claim C8, counterexample: with an incomplete buffer (total 3, chunks 0
and 1 stored), the arrival of the packet `[2, 0, 99]` with chunk index 0 does
not start a new reassembly: the buffer keeps total 3 (it does not adopt the
new packet's total 2) and still holds the old chunk 1. -/
theorem claim_c8_counterexample :
    (onChainedPartReceived ⟨some 3, [(1, [11]), (0, [10])]⟩ [2, 0, 99]).chainedTotalParts ≠ some 2 ∧
    (onChainedPartReceived ⟨some 3, [(1, [11]), (0, [10])]⟩ [2, 0, 99]).chainedTotalParts = some 3 ∧
    lookupPart 1 (onChainedPartReceived ⟨some 3, [(1, [11]), (0, [10])]⟩ [2, 0, 99]).chainedParts =
      some [11] := by
  refine ⟨by decide, rfl, rfl⟩

/-- Claim C8, amended: while a reassembly buffer is incomplete, the arrival
of a packet with chunk index 0 does NOT start a new reassembly: the buffer's
total_chunks is retained (the new packet's total byte is ignored), every
previously stored chunk with a non-zero index is retained, and only the
index-0 entry is overwritten with the new packet's data.  The buffer is reset
only at the start and end of receive_message. -/
theorem claim_c8_amended (s : ModemState) (n t : Nat) (d : List Nat)
    (hs : s.chainedTotalParts = some n) :
    (onChainedPartReceived s (t :: 0 :: d)).chainedTotalParts = some n ∧
    lookupPart 0 (onChainedPartReceived s (t :: 0 :: d)).chainedParts = some d ∧
    (∀ k : Nat, k ≠ 0 →
      lookupPart k (onChainedPartReceived s (t :: 0 :: d)).chainedParts =
        lookupPart k s.chainedParts) := by
  have hparts : (onChainedPartReceived s (t :: 0 :: d)).chainedParts =
      (0, d) :: s.chainedParts := by
    simp [onChainedPartReceived]
  refine ⟨onChainedPartReceived_totalParts_some s _ n hs, ?_, ?_⟩
  · rw [hparts]
    exact lookupPart_cons_self 0 d s.chainedParts
  · intro k hk
    rw [hparts]
    exact lookupPart_cons_ne k 0 d s.chainedParts (Ne.symm hk)

/-- Witness for claim C8 amended, at the counterexample's input: the packet
`[2, 0, 99]` overwrites only chunk 0 and the buffer keeps total 3 and
chunk 1. -/
theorem claim_c8_amended_witness :
    (onChainedPartReceived ⟨some 3, [(1, [11]), (0, [10])]⟩ (2 :: 0 :: [99])).chainedTotalParts = some 3 ∧
    lookupPart 0 (onChainedPartReceived ⟨some 3, [(1, [11]), (0, [10])]⟩ (2 :: 0 :: [99])).chainedParts =
      some [99] ∧
    (∀ k : Nat, k ≠ 0 →
      lookupPart k (onChainedPartReceived ⟨some 3, [(1, [11]), (0, [10])]⟩ (2 :: 0 :: [99])).chainedParts =
        lookupPart k [(1, [11]), (0, [10])]) :=
  claim_c8_amended ⟨some 3, [(1, [11]), (0, [10])]⟩ 3 2 [99] rfl

theorem splitSeq_eq_none (s0 : Nat) (srest l : List Nat)
    (hf : findSeq (s0 :: srest) l = none) : splitSeq (s0 :: srest) l = [l] := by
  rw [splitSeq]
  split
  · rfl
  · next i hsome => rw [hf] at hsome; cases hsome

theorem splitSeq_eq_some (s0 : Nat) (srest l : List Nat) (i : Nat)
    (hf : findSeq (s0 :: srest) l = some i) :
    splitSeq (s0 :: srest) l =
      l.take i :: splitSeq (s0 :: srest) (l.drop (i + (srest.length + 1))) := by
  rw [splitSeq]
  split
  · next hnone => rw [hf] at hnone; cases hnone
  · next j hsome =>
      rw [hf] at hsome
      injection hsome with hsome
      subst hsome
      rfl

theorem splitSeq_ne_nil (sep l : List Nat) : splitSeq sep l ≠ [] := by
  cases sep with
  | nil => simp [splitSeq]
  | cons s0 srest =>
      cases hf : findSeq (s0 :: srest) l with
      | none => rw [splitSeq_eq_none s0 srest l hf]; simp
      | some i => rw [splitSeq_eq_some s0 srest l i hf]; simp

theorem findSeq_none_no_occurrence (sep l : List Nat)
    (h : findSeq sep l = none) : ∀ i, ¬ sep <+: l.drop i := by
  induction l with
  | nil =>
      intro i hpre
      have hne : sep ≠ [] := by
        intro hs
        subst hs
        simp [findSeq, seqStartsWith] at h
      simp only [List.drop_nil] at hpre
      exact hne (List.prefix_nil.mp hpre)
  | cons a rest ih =>
      simp only [findSeq] at h
      split at h
      · cases h
      · next hsw =>
          have hrest : findSeq sep rest = none := by
            cases hr : findSeq sep rest with
            | none => rfl
            | some j => rw [hr] at h; simp at h
          intro i
          match i with
          | 0 =>
              intro hpre
              exact hsw ((seqStartsWith_iff sep (a :: rest)).mpr hpre)
          | Nat.succ j =>
              simpa using ih hrest j

/-- If the separator does not occur in `name` and has no proper self-overlap
(no non-trivial suffix of it is also one of its own prefixes), then it does
not occur in `name ++ sep ++ rest` at any position strictly before
`name.length`. -/
theorem no_occurrence_before_boundary (sep name rest : List Nat)
    (hname : ∀ i, ¬ sep <+: name.drop i)
    (hov : ∀ k, 0 < k → k < sep.length → ¬ sep.drop k <+: sep) :
    ∀ i < name.length, ¬ sep <+: (name ++ (sep ++ rest)).drop i := by
  intro i hi hpre
  rw [List.drop_append_of_le_length (Nat.le_of_lt hi)] at hpre
  by_cases hle : sep.length ≤ (name.drop i).length
  · have htake : sep = (name.drop i).take sep.length := by
      have := List.prefix_iff_eq_take.mp hpre
      rwa [List.take_append_of_le_length hle] at this
    have : sep <+: name.drop i := by
      rw [htake]
      exact ⟨(name.drop i).drop sep.length, List.take_append_drop _ _⟩
    exact hname i this
  · push_neg at hle
    set s := name.drop i with hs
    set k := s.length with hk
    have hkpos : 0 < k := by
      simp only [hk, hs, List.length_drop]
      omega
    have hdecomp : sep = s ++ sep.take (sep.length - k) := by
      have := List.prefix_iff_eq_take.mp hpre
      rw [List.take_append_eq_append_take, List.take_of_length_le (Nat.le_of_lt hle),
        List.take_append_of_le_length (by omega)] at this
      simpa [hk] using this
    have hdropk : sep.drop k = sep.take (sep.length - k) := by
      conv_lhs => rw [hdecomp]
      rw [show k = s.length from hk ▸ rfl]
      exact List.drop_left s _
    have : sep.drop k <+: sep :=
      hdropk ▸ ⟨sep.drop (sep.length - k), List.take_append_drop _ _⟩
    exact hov k hkpos hle this

/-- If the separator does not occur before the boundary, its first occurrence
in `name ++ sep ++ rest` is exactly at `name.length`. -/
theorem findSeq_boundary (sep name rest : List Nat) (hsep : sep ≠ [])
    (h : ∀ i < name.length, ¬ sep <+: (name ++ (sep ++ rest)).drop i) :
    findSeq sep (name ++ (sep ++ rest)) = some name.length := by
  induction name with
  | nil =>
      cases hsr : sep ++ rest with
      | nil => exact absurd (List.append_eq_nil.mp hsr).1 hsep
      | cons a t =>
          have hsw : seqStartsWith sep (a :: t) = true := by
            rw [seqStartsWith_iff, ← hsr]
            exact List.prefix_append sep rest
          simp [findSeq, hsr, hsw]
  | cons c name' ih =>
      have h0 : ¬ sep <+: (c :: (name' ++ (sep ++ rest))) := by
        have := h 0 (by simp)
        simpa using this
      have hsw : seqStartsWith sep (c :: (name' ++ (sep ++ rest))) = false := by
        cases hb : seqStartsWith sep (c :: (name' ++ (sep ++ rest))) with
        | false => rfl
        | true => exact absurd ((seqStartsWith_iff _ _).mp hb) h0
      have ih' := ih (fun i hi => by
        have := h (i + 1) (by simpa using Nat.succ_lt_succ hi)
        simpa using this)
      simp [List.cons_append, findSeq, hsw, ih']

/-- Splitting `name ++ sep ++ rest` whose first separator occurrence sits at
the boundary cuts off exactly `name`. -/
theorem splitSeq_boundary (s0 : Nat) (srest name rest : List Nat)
    (hf : findSeq (s0 :: srest) (name ++ ((s0 :: srest) ++ rest)) = some name.length) :
    splitSeq (s0 :: srest) (name ++ ((s0 :: srest) ++ rest)) =
      name :: splitSeq (s0 :: srest) rest := by
  rw [splitSeq_eq_some s0 srest _ name.length hf]
  congr 1
  · exact List.take_left name _
  · congr 1
    rw [show name.length + (srest.length + 1) = name.length + (s0 :: srest).length
        by simp]
    rw [List.drop_append (s0 :: srest).length]
    exact List.drop_left (s0 :: srest) rest

theorem joinSep_splitSeq_bounded (s0 : Nat) (srest : List Nat) :
    ∀ (n : Nat) (l : List Nat), l.length ≤ n →
      joinSep (s0 :: srest) (splitSeq (s0 :: srest) l) = l := by
  intro n
  induction n with
  | zero =>
      intro l hl
      have hnil : l = [] := List.length_eq_zero.mp (Nat.le_zero.mp hl)
      subst hnil
      have hf : findSeq (s0 :: srest) [] = none := by
        simp [findSeq, seqStartsWith]
      rw [splitSeq_eq_none s0 srest [] hf]
      rfl
  | succ m ih =>
      intro l hl
      cases hf : findSeq (s0 :: srest) l with
      | none =>
          rw [splitSeq_eq_none s0 srest l hf]
          rfl
      | some i =>
          have hpre : (s0 :: srest) <+: l.drop i :=
            (seqStartsWith_iff _ _).mp (findSeq_startsWith _ l i hf)
          have hilen : i + (srest.length + 1) ≤ l.length := by
            have := hpre.length_le
            simp only [List.length_drop, List.length_cons] at this
            omega
          have hdrop : l.drop i = (s0 :: srest) ++ l.drop (i + (srest.length + 1)) := by
            obtain ⟨u, hu⟩ := hpre
            have hu' : u = l.drop (i + (srest.length + 1)) := by
              have : ((s0 :: srest) ++ u).drop (s0 :: srest).length = u :=
                List.drop_left _ _
              rw [hu] at this
              rw [← this, List.drop_drop]
              congr 1
              try omega
            rw [← hu, hu']
          rw [splitSeq_eq_some s0 srest l i hf]
          have hlen2 : (l.drop (i + (srest.length + 1))).length ≤ m := by
            simp only [List.length_drop]
            omega
          have hrec := ih (l.drop (i + (srest.length + 1))) hlen2
          cases hsp : splitSeq (s0 :: srest) (l.drop (i + (srest.length + 1))) with
          | nil => exact absurd hsp (splitSeq_ne_nil _ _)
          | cons y t =>
              rw [hsp] at hrec
              show l.take i ++ (s0 :: srest) ++ joinSep (s0 :: srest) (y :: t) = l
              rw [hrec]
              rw [List.append_assoc, ← hdrop, List.take_append_drop]

/-- Python `sep.join(x.split(sep)) == x` for a non-empty separator. -/
theorem joinSep_splitSeq (s0 : Nat) (srest l : List Nat) :
    joinSep (s0 :: srest) (splitSeq (s0 :: srest) l) = l :=
  joinSep_splitSeq_bounded s0 srest l.length l (Nat.le_refl _)

/-- Full first-occurrence decomposition: if the separator does not occur in
`name` (as `findSeq` reports) and has no proper self-overlap, then splitting
`name ++ sep ++ rest` yields `name` followed by the split of `rest`. -/
theorem splitSeq_append_of_no_occurrence (s0 : Nat) (srest name rest : List Nat)
    (hname : findSeq (s0 :: srest) name = none)
    (hov : ∀ k, 0 < k → k < (s0 :: srest).length → ¬ (s0 :: srest).drop k <+: (s0 :: srest)) :
    splitSeq (s0 :: srest) (name ++ ((s0 :: srest) ++ rest)) =
      name :: splitSeq (s0 :: srest) rest := by
  have hno := findSeq_none_no_occurrence (s0 :: srest) name hname
  have hb := no_occurrence_before_boundary (s0 :: srest) name rest hno hov
  have hf := findSeq_boundary (s0 :: srest) name rest (by simp) hb
  exact splitSeq_boundary s0 srest name rest hf

/-- Claim C9: for every file name whose bytes do not contain the name
separator (as the scan `findSeq` reports), and every content byte sequence —
which may itself contain the separator — encoding the file payload as
`name ++ FILE_NAME_SEPARATOR ++ contents` and decoding it by splitting on the
separator recovers exactly the original name and contents. -/
theorem claim_c9 (name contents : List Nat)
    (hname : findSeq FILE_NAME_SEPARATOR name = none) :
    receiveFilePayload (sendFilePayload name contents) = (name, contents) := by
  have hov6 : ∀ k < 6,
      (0 < k → ¬ FILE_NAME_SEPARATOR.drop k <+: FILE_NAME_SEPARATOR) := by
    decide
  have hov : ∀ k, 0 < k → k < FILE_NAME_SEPARATOR.length →
      ¬ FILE_NAME_SEPARATOR.drop k <+: FILE_NAME_SEPARATOR := by
    intro k hpos hlt
    exact hov6 k (by simpa [FILE_NAME_SEPARATOR] using hlt) hpos
  have hsplit :
      splitSeq FILE_NAME_SEPARATOR (name ++ (FILE_NAME_SEPARATOR ++ contents)) =
        name :: splitSeq FILE_NAME_SEPARATOR contents :=
    splitSeq_append_of_no_occurrence 60 [78, 65, 77, 69, 62] name contents
      hname hov
  have hassoc : sendFilePayload name contents =
      name ++ (FILE_NAME_SEPARATOR ++ contents) := by
    simp [sendFilePayload, List.append_assoc]
  rw [receiveFilePayload, hassoc, hsplit]
  exact congrArg (Prod.mk name) (joinSep_splitSeq 60 [78, 65, 77, 69, 62] contents)

/-- Witness for claim C9 at concrete input: name `"a"` and contents that
consist of the separator bytes followed by `"b"` — the contents legitimately
contain the separator and still round-trip exactly. -/
theorem claim_c9_witness :
    receiveFilePayload (sendFilePayload [97] [60, 78, 65, 77, 69, 62, 98]) =
      ([97], [60, 78, 65, 77, 69, 62, 98]) :=
  claim_c9 [97] [60, 78, 65, 77, 69, 62, 98] (by decide)

/-- Claim C4: for every set of packets forming one message (a common total
byte, pairwise distinct index bytes, each packet carrying the 2-byte header),
feeding the packets to the reassembly buffer in any permutation of arrival
order yields the identical final reassembled message. -/
theorem claim_c4 (t : Nat) (l₁ l₂ : List (List Nat))
    (hperm : l₁.Perm l₂)
    (h2 : ∀ p ∈ l₁, 2 ≤ p.length)
    (ht : ∀ p ∈ l₁, packetTotal p = t)
    (hnd : (l₁.map packetIndex).Nodup) :
    finalChainedMessage (l₁.foldl onChainedPartReceived initialModemState) =
      finalChainedMessage (l₂.foldl onChainedPartReceived initialModemState) := by
  have h2' : ∀ p ∈ l₂, 2 ≤ p.length := fun p hp => h2 p (hperm.symm.subset hp)
  have ht' : ∀ p ∈ l₂, packetTotal p = t := fun p hp => ht p (hperm.symm.subset hp)
  by_cases hnil : l₁ = []
  · subst hnil
    have : l₂ = [] := Eq.symm (List.Perm.nil_eq hperm)
    subst this
    rfl
  · have hnil' : l₂ ≠ [] := by
      intro h
      subst h
      exact hnil (List.Perm.eq_nil hperm)
    have htp₁ := foldl_totalParts l₁ t h2 ht hnil
    have htp₂ := foldl_totalParts l₂ t h2' ht' hnil'
    have hparts₁ := foldl_chainedParts l₁ initialModemState h2
    have hparts₂ := foldl_chainedParts l₂ initialModemState h2'
    rw [show initialModemState.chainedParts = [] from rfl, List.append_nil]
      at hparts₁ hparts₂
    have hpe : (l₁.reverse.map (fun p => (packetIndex p, packetData p))).Perm
        (l₂.reverse.map (fun p => (packetIndex p, packetData p))) :=
      (((List.reverse_perm l₁).trans hperm).trans
        (List.reverse_perm l₂).symm).map _
    have hkeys : ((l₁.reverse.map
        (fun p => (packetIndex p, packetData p))).map Prod.fst).Nodup := by
      rw [List.map_map]
      have : (Prod.fst ∘ fun p => (packetIndex p, packetData p)) = packetIndex := by
        funext p
        rfl
      rw [this, List.map_reverse]
      exact List.nodup_reverse.mpr hnd
    have hlook : ∀ k, lookupPart k
        (l₁.foldl onChainedPartReceived initialModemState).chainedParts =
        lookupPart k (l₂.foldl onChainedPartReceived initialModemState).chainedParts := by
      intro k
      rw [hparts₁, hparts₂]
      exact lookupPart_perm _ _ hpe hkeys k
    simp only [finalChainedMessage, htp₁, htp₂]
    congr 1
    unfold chainedCombine
    congr 1
    refine List.map_congr_left ?_
    intro i _
    rw [hlook i]

/-- Witness for claim C4 at concrete input: the two packets of a two-chunk
message fed in both orders produce the same final message. -/
theorem claim_c4_witness :
    finalChainedMessage (([[2, 0, 5], [2, 1, 6]] : List (List Nat)).foldl
        onChainedPartReceived initialModemState) =
      finalChainedMessage (([[2, 1, 6], [2, 0, 5]] : List (List Nat)).foldl
        onChainedPartReceived initialModemState) :=
  claim_c4 2 [[2, 0, 5], [2, 1, 6]] [[2, 1, 6], [2, 0, 5]]
    (by decide) (by decide) (by decide) (by decide)

theorem lookupPart_sent (message : List Nat) (chainLen k : Nat) (hk : k < chainLen) :
    lookupPart k ((sendPackets message (List.range chainLen) chainLen).foldl
        onChainedPartReceived initialModemState).chainedParts =
      some ((message.drop (DATA_LEN * k)).take DATA_LEN) := by
  have h2 : ∀ p ∈ sendPackets message (List.range chainLen) chainLen,
      2 ≤ p.length := by
    intro p hp
    simp only [sendPackets, List.mem_map] at hp
    obtain ⟨i, _, rfl⟩ := hp
    simp [mkPacket]
  have hparts := foldl_chainedParts _ initialModemState h2
  rw [show initialModemState.chainedParts = [] from rfl, List.append_nil] at hparts
  rw [hparts]
  have hentry : (sendPackets message (List.range chainLen) chainLen).reverse.map
      (fun p => (packetIndex p, packetData p)) =
      (List.range chainLen).reverse.map
        (fun i => (i, (message.drop (DATA_LEN * i)).take DATA_LEN)) := by
    simp only [sendPackets, ← List.map_reverse, List.map_map]
    rfl
  rw [hentry]
  unfold lookupPart
  rw [find?_map_pair]
  have hmem : k ∈ (List.range chainLen).reverse := by
    simp [List.mem_range, hk]
  rw [if_pos hmem]
  rfl

/-- Reassembling the packets of one unconfirmed send (folding them into a
fresh buffer in transmitted order, then combining at the buffer's total)
reproduces the transmitted message exactly. -/
theorem reassemble_sent (message : List Nat) :
    finalChainedMessage ((sendPackets message
        (List.range (getChainLen message.length))
        (getChainLen message.length)).foldl
        onChainedPartReceived initialModemState) = some message := by
  set chainLen := getChainLen message.length with hcl
  have hclpos : 1 ≤ chainLen := by
    simp [hcl, getChainLen]
  have h2 : ∀ p ∈ sendPackets message (List.range chainLen) chainLen,
      2 ≤ p.length := by
    intro p hp
    simp only [sendPackets, List.mem_map] at hp
    obtain ⟨i, _, rfl⟩ := hp
    simp [mkPacket]
  have ht : ∀ p ∈ sendPackets message (List.range chainLen) chainLen,
      packetTotal p = chainLen := by
    intro p hp
    simp only [sendPackets, List.mem_map] at hp
    obtain ⟨i, _, rfl⟩ := hp
    simp [mkPacket, packetTotal]
  have hne : sendPackets message (List.range chainLen) chainLen ≠ [] := by
    simp only [sendPackets, ne_eq, List.map_eq_nil_iff, List.range_eq_nil]
    omega
  have htotal := foldl_totalParts _ chainLen h2 ht hne
  have hmap : (List.range chainLen).map
      (fun i => (lookupPart i ((sendPackets message (List.range chainLen)
          chainLen).foldl onChainedPartReceived initialModemState).chainedParts).getD []) =
      (List.range chainLen).map
        (fun i => (message.drop (DATA_LEN * i)).take DATA_LEN) := by
    refine List.map_congr_left ?_
    intro i hi
    rw [lookupPart_sent message chainLen i (List.mem_range.mp hi)]
    rfl
  have hcomb : chainedCombine chainLen ((sendPackets message
      (List.range chainLen) chainLen).foldl
      onChainedPartReceived initialModemState).chainedParts = message := by
    unfold chainedCombine
    rw [hmap, flatten_slices]
    refine List.take_of_length_le ?_
    simp only [hcl, getChainLen, DATA_LEN]
    omega
  rw [finalChainedMessage, htotal]
  exact congrArg some hcomb

theorem readMessage_frame (kind : MessageKind) (payload : List Nat) :
    readMessage (frameMessage kind payload) = some (kind, payload) := by
  have hname : findSeq [HEADER_SEPARATOR] [kindByte kind] = none := by
    cases kind <;> decide
  have hov : ∀ k, 0 < k → k < ([HEADER_SEPARATOR] : List Nat).length →
      ¬ ([HEADER_SEPARATOR] : List Nat).drop k <+: [HEADER_SEPARATOR] := by
    intro k hpos hlt
    simp only [List.length_cons, List.length_nil] at hlt
    omega
  have hsplit := splitSeq_append_of_no_occurrence HEADER_SEPARATOR []
    [kindByte kind] payload hname hov
  have hframe : frameMessage kind payload =
      [kindByte kind] ++ ([HEADER_SEPARATOR] ++ payload) := rfl
  rw [readMessage, hframe, hsplit]
  have hkind : kindOfBytes [kindByte kind] = some kind := by
    cases kind <;> rfl
  show (kindOfBytes [kindByte kind]).map
      (fun k => (k, joinSep [HEADER_SEPARATOR] (splitSeq [HEADER_SEPARATOR] payload))) =
    some (kind, payload)
  rw [hkind, Option.map_some']
  exact congrArg some
    (congrArg (Prod.mk kind) (joinSep_splitSeq HEADER_SEPARATOR [] payload))

/-- Claim C2, counterexample: a payload of the claimed maximal length
`255 * 30` cannot be split into packets at all — framing it and handing it to
the send operation raises MessageTooLongException before any packet exists,
so no reassembly can reconstruct it. -/
theorem claim_c2_counterexample :
    sendMessage false (frameMessage MessageKind.text (List.replicate (255 * 30) 0)) [] =
      ([], some ModemError.messageTooLong) := by
  have hlen : (frameMessage MessageKind.text (List.replicate (255 * 30) 0)).length =
      7652 := by
    rw [frameMessage, List.length_cons, List.length_cons, List.length_replicate]
  rw [sendMessage, hlen]
  norm_num [getChainLen, DATA_LEN]

/-- Claim C2, amended: for every byte sequence of length
`L ≤ 255 * 30 - 3`, framing it, splitting the framed bytes into packets with
the chunker (which accepts: the chunk count stays within 255), folding the
packets into a fresh reassembly buffer and combining them by index, and then
reading the framed envelope, reconstructs exactly the original kind and byte
sequence.  (The claimed bound `L ≤ 255 * 30` fails: the 2-byte envelope plus
the `floor/30 + 1` chunk count already exceed 255 chunks for
`L ≥ 255 * 30 - 2`, and the send is rejected.) -/
theorem claim_c2_amended (kind : MessageKind) (payload : List Nat)
    (h : payload.length ≤ 255 * 30 - 3) :
    getChainLen (frameMessage kind payload).length ≤ 255 ∧
    finalChainedMessage ((sendPackets (frameMessage kind payload)
        (List.range (getChainLen (frameMessage kind payload).length))
        (getChainLen (frameMessage kind payload).length)).foldl
        onChainedPartReceived initialModemState) = some (frameMessage kind payload) ∧
    readMessage (frameMessage kind payload) = some (kind, payload) := by
  refine ⟨?_, reassemble_sent (frameMessage kind payload), readMessage_frame kind payload⟩
  have hlen : (frameMessage kind payload).length = payload.length + 2 := by
    simp [frameMessage]
  rw [hlen]
  simp only [getChainLen, DATA_LEN]
  omega

/-- Witness for claim C2 amended at concrete input: the text payload
`[7, 8]` frames to `[116, 124, 7, 8]`, chunks into one packet, reassembles to
the framed bytes, and reads back as kind Text with payload `[7, 8]`. -/
theorem claim_c2_amended_witness :
    getChainLen (frameMessage MessageKind.text [7, 8]).length ≤ 255 ∧
    finalChainedMessage ((sendPackets (frameMessage MessageKind.text [7, 8])
        (List.range (getChainLen (frameMessage MessageKind.text [7, 8]).length))
        (getChainLen (frameMessage MessageKind.text [7, 8]).length)).foldl
        onChainedPartReceived initialModemState) =
      some (frameMessage MessageKind.text [7, 8]) ∧
    readMessage (frameMessage MessageKind.text [7, 8]) =
      some (MessageKind.text, [7, 8]) :=
  claim_c2_amended MessageKind.text [7, 8] (by decide)

theorem bufferAfter_cons (s : ModemState) (ev : ReceiveEvent)
    (rest : List ReceiveEvent) (j : Nat) :
    bufferAfter s (ev :: rest) (j + 1) =
      bufferAfter (ev.arrived.foldl onChainedPartReceived s) rest j := by
  simp [bufferAfter, List.take_succ_cons, List.foldl_append]

/-- Claim C3: whatever the arrival and timeout schedule, the receive loop
delivers a message only out of its own reassembly buffer — the starting
state with the packets that actually arrived during the processed iterations
folded in — at a point where that buffer's missing-part list is empty, i.e.
every chunk index in `0 .. total-1` is present for the buffer's own total;
the delivered message is exactly `chained_combine` of that buffer (the
concatenation of its stored data slices in index order).  When no such
complete buffer state is reached — for example when the loop ends by
timeout — no message, partial or otherwise, is ever delivered. -/
theorem claim_c3 (events : List ReceiveEvent) (s : ModemState)
    (lastExpectedPart : Option Int) (m : List Nat)
    (h : receiveLoop s lastExpectedPart events = some m) :
    ∃ j n,
      (bufferAfter s events j).chainedTotalParts = some n ∧
      chainedMissingParts n (bufferAfter s events j).chainedParts = [] ∧
      (∀ i, i < n →
        (lookupPart i (bufferAfter s events j).chainedParts).isSome = true) ∧
      m = chainedCombine n (bufferAfter s events j).chainedParts := by
  induction events generalizing s lastExpectedPart with
  | nil => exact absurd h (by simp [receiveLoop])
  | cons ev rest ih =>
      simp only [receiveLoop] at h
      split at h
      · split at h
        · cases h
        · obtain ⟨j, n, h1, h2, h3, h4⟩ := ih _ _ h
          refine ⟨j + 1, n, ?_, ?_, ?_, ?_⟩
          · rw [bufferAfter_cons]; exact h1
          · rw [bufferAfter_cons]; exact h2
          · rw [bufferAfter_cons]; exact h3
          · rw [bufferAfter_cons]; exact h4
      · next n hst =>
          split at h
          · split at h
            next hmiss =>
                injection h with h
                have hbuf : bufferAfter s (ev :: rest) 0 =
                    ev.arrived.foldl onChainedPartReceived s := by
                  simp [bufferAfter]
                refine ⟨0, n, ?_, ?_, ?_, ?_⟩
                · rw [hbuf]; exact hst
                · rw [hbuf]; exact hmiss
                · rw [hbuf]
                  intro i hi
                  have hall := List.filter_eq_nil_iff.mp hmiss
                  cases hopt : lookupPart i
                      (ev.arrived.foldl onChainedPartReceived s).chainedParts with
                  | none =>
                      exfalso
                      exact hall i (List.mem_range.mpr hi) (by simp [hopt])
                  | some v => simp
                · rw [hbuf]; exact h.symm
            next m0 ms hmiss =>
                obtain ⟨j, n', h1, h2, h3, h4⟩ := ih _ _ h
                refine ⟨j + 1, n', ?_, ?_, ?_, ?_⟩
                · rw [bufferAfter_cons]; exact h1
                · rw [bufferAfter_cons]; exact h2
                · rw [bufferAfter_cons]; exact h3
                · rw [bufferAfter_cons]; exact h4
          · obtain ⟨j, n', h1, h2, h3, h4⟩ := ih _ _ h
            refine ⟨j + 1, n', ?_, ?_, ?_, ?_⟩
            · rw [bufferAfter_cons]; exact h1
            · rw [bufferAfter_cons]; exact h2
            · rw [bufferAfter_cons]; exact h3
            · rw [bufferAfter_cons]; exact h4

/-- Witness for claim C3 at concrete input: a single event delivering the
one-chunk packet `[1, 0, 9]` makes the loop return the message `[9]`, and
the theorem exhibits the loop's own buffer after that iteration — total 1,
nothing missing — whose combination is `[9]`. -/
theorem claim_c3_witness :
    ∃ j n,
      (bufferAfter initialModemState [⟨[[1, 0, 9]], false⟩] j).chainedTotalParts =
        some n ∧
      chainedMissingParts n
        (bufferAfter initialModemState [⟨[[1, 0, 9]], false⟩] j).chainedParts = [] ∧
      (∀ i, i < n → (lookupPart i
        (bufferAfter initialModemState [⟨[[1, 0, 9]], false⟩] j).chainedParts).isSome = true) ∧
      [9] = chainedCombine n
        (bufferAfter initialModemState [⟨[[1, 0, 9]], false⟩] j).chainedParts :=
  claim_c3 [⟨[[1, 0, 9]], false⟩] initialModemState none [9] rfl
